import Mathlib

/-!
# rxuart_tb: the UART receiver test bench

A shallow embedding of `src/ex-09-uartrx/rxuart_tb.cpp`.  The test bench forks:
the parent ("verifier") writes the reference file to the child and compares what
comes back on a pipe; the child ("driver") ticks the receiver core and prints
every byte the core reports.

Conventions of the embedding.

* A C `char` is a `Char`; the byte `0` is `Char.ofNat 0`.
* Standard output is the list of characters written to it, in order.
* `int nr`, `int rd` and the loop index `i` never go below zero in the compare
  loop and are natural numbers here; `int fail`, whose value `-1` means
  "no failure recorded", is an `Int`.
* Channel B (the child's standard output, read by the parent) is given as the
  list of results of the successive `read` calls: each result is the chunk of
  bytes that is pending at that call, the empty chunk standing for a return
  value `<= 0`; once the list is used up the channel is at end-of-stream.
-/

namespace RxUartTb

/-! ## The verifier's compare loop (lines 210-232) -/

/-- The memory accesses of the compare loop, recorded in order. -/
inductive Access where
  /-- Records `read(childs_stdout[0], &rdbuf[nr], count)`. -/
  | request (nr count : Nat)
  /-- Records a use of `rdbuf[i]`, read or written. -/
  | rdbufAt (i : Nat)
  /-- Records a use of `string[i]`. -/
  | stringAt (i : Nat)
  deriving DecidableEq, Repr

/-- The variables of the parent that the compare loop changes. -/
structure Verifier where
  /-- Offset `nr`: the number of bytes received and matched so far. -/
  nr : Nat
  /-- Result `rd` of the last `read`. -/
  rd : Nat
  /-- Index `fail` of the failure, `-1` when there is none. -/
  fail : Int
  /-- Contents of `rdbuf`. -/
  rdbuf : Nat → Char
  /-- Characters written to standard output so far. -/
  out : List Char
  /-- Accesses made so far. -/
  log : List Access

/-- The byte `'\0'`. -/
def NUL : Char := Char.ofNat 0

/-- POSIX `read` with the pending chunk `pending`: at most `count` bytes are
delivered. -/
def read (pending : List Char) (count : Nat) : List Char :=
  pending.take count

/-- Memory after `read` has stored `chunk` at `&buf[nr]`. -/
def store (buf : Nat → Char) (nr : Nat) (chunk : List Char) : Nat → Char :=
  fun j => if nr ≤ j ∧ j < nr + chunk.length then chunk.getD (j - nr) NUL else buf j

/-- The inner loop `for (int i=0; i<rd; i++)` of lines 215-221, with `todo`
the number of iterations left (`rd - i`).  Every byte is echoed with `putchar`
before it is compared; the first unequal byte sets `fail` and leaves the loop. -/
def forLoop (string : List Char) : Nat → Nat → Verifier → Verifier
  | 0, _, s => s
  | todo + 1, i, s =>
    let c := s.rdbuf (s.nr + i)
    let s1 : Verifier :=
      { s with out := s.out ++ [c], log := s.log ++ [Access.rdbufAt (s.nr + i)] }
    let s2 : Verifier :=
      { s1 with log := s1.log ++ [Access.rdbufAt (s.nr + i), Access.stringAt (s.nr + i)] }
    if c ≠ string.getD (s.nr + i) NUL then
      { s2 with fail := ((s.nr + i : Nat) : Int) }
    else
      forLoop string todo (i + 1) s2

/-- The loop `while ((nr < flen) && ((rd = read(..., &rdbuf[nr], flen-nr)) > 0))`
of lines 213-232, one read result per iteration. -/
def whileLoop (string : List Char) (flen : Nat) : List (List Char) → Verifier → Verifier
  | [], s =>
    if s.nr < flen then
      -- the channel is at end-of-stream: `read` returns 0
      { s with rd := 0, log := s.log ++ [Access.request s.nr (flen - s.nr)] }
    else s
  | pending :: rest, s =>
    if s.nr < flen then
      let chunk := read pending (flen - s.nr)
      let s1 : Verifier :=
        { s with
          rd := chunk.length
          rdbuf := store s.rdbuf s.nr chunk
          log := s.log ++ [Access.request s.nr (flen - s.nr)] }
      if 0 < s1.rd then
        let s2 := forLoop string s1.rd 0 s1
        if 0 ≤ s2.fail then s2
        else
          let s3 : Verifier :=
            { s2 with
              rdbuf := Function.update s2.rdbuf (s2.rd + s2.nr) NUL
              log := s2.log ++ [Access.rdbufAt (s2.rd + s2.nr)]
              nr := s2.nr + s2.rd }
          if s3.rd ≤ 0 then
            { s3 with
              out := s3.out ++ "\n\nERROR: Stream ended early\n".toList
              fail := (s3.nr : Int) }
          else whileLoop string flen rest s3
      else s1
    else s

/-- The state at line 212: `nr = 0; rd = 0; fail = -1;`. -/
def initial (rdbuf : Nat → Char) : Verifier :=
  { nr := 0, rd := 0, fail := -1, rdbuf := rdbuf, out := [], log := [] }

/-- The conversion `%d` of `printf`. -/
def fmtInt (n : Int) : List Char := (toString n).toList

/-- The report of lines 235-249, written after the loop. -/
def report (s : Verifier) : List Char :=
  let out := s.out ++ "\n\n".toList
  if s.fail < 0 then
    out ++ ("SUCCESS - all ".toList ++ fmtInt s.nr ++ " characters matched\n".toList)
      ++ "PASS\n".toList
  else
    out ++ ("ERROR: Character ".toList ++ fmtInt s.fail ++ " did not match\n".toList)
      ++ "       as shown above.\n".toList
      ++ "FAIL\n".toList

/-- The compare loop run from its initial state. -/
def compare (string : List Char) (flen : Nat) (reads : List (List Char))
    (rdbuf : Nat → Char) : Verifier :=
  whileLoop string flen reads (initial rdbuf)

/-- Standard output of the parent from line 210 on. -/
def verdict (string : List Char) (flen : Nat) (reads : List (List Char))
    (rdbuf : Nat → Char) : List Char :=
  report (compare string flen reads rdbuf)

/-! ## Loading the reference (lines 97-128, 174-204) -/

/-- The function `strlen`: the number of bytes before the first `'\0'`. -/
def strlen : List Char → Nat
  | [] => 0
  | c :: cs => if c = NUL then 0 else strlen cs + 1

/-- Conversion of an integer to the 32-bit `int` that `nr` is. -/
def toInt32 (x : Int) : Int := (x + 2 ^ 31) % 2 ^ 32 - 2 ^ 31

/-- The buffer `string` after `fread` has stored `got` and line 193 has set
`string[nr] = 0` behind it. -/
def loadString (got : List Char) : List Char := got ++ [NUL]

/-- The verifier's `flen` after line 194, `flen = strlen(string)`. -/
def verifierFlen (got : List Char) : Nat := strlen (loadString got)

/-- The bytes that `write(childs_stdin[1], string, flen)` of line 202 is asked
to transmit on channel A. -/
def transmitted (got : List Char) : List Char :=
  (loadString got).take (verifierFlen got)

/-! ## The driver's tick loop (lines 309-333) -/

/-- The tick ceiling of line 309. -/
def LARGE_NUMBER : Nat := 0x007fffff

/-- The number of ticks that the comment of lines 310-311 gives as needed for
`flen` bytes: `(baudclocks * 10 + 2) * flen + 16`. -/
def nominalTicks (baudclocks flen : Nat) : Nat := (baudclocks * 10 + 2) * flen + 16

/-- The variables of the child that the tick loop changes. -/
structure Driver where
  /-- The counter `unsigned testcount`. -/
  testcount : Nat
  /-- The counter `int num_received`. -/
  num_received : Nat
  /-- The number of calls of `tb->tick()` made so far. -/
  ticks : Nat
  /-- The characters written with `putchar`, which go to channel B. -/
  out : List Char
  deriving DecidableEq, Repr

/-- The loop `while ((testcount++ < LARGE_NUMBER) && (num_received < flen))`.
The core, together with the line simulator that drives its input, is a function
`dut` from the number of the tick (counted from 0) to the values of `o_wr` and
`o_data` after that tick.  The first argument bounds
the number of evaluations of the loop condition; `none` means the bound was
too small. -/
def driverLoop (dut : Nat → Bool × Char) (flen : Int) : Nat → Driver → Option Driver
  | 0, _ => none
  | fuel + 1, s =>
    let s1 : Driver := { s with testcount := (s.testcount + 1) % 2 ^ 32 }
    if s.testcount < LARGE_NUMBER ∧ (s1.num_received : Int) < flen then
      let o := dut s1.ticks
      let s2 : Driver := { s1 with ticks := s1.ticks + 1 }
      if o.1 = true then
        driverLoop dut flen fuel
          { s2 with num_received := s2.num_received + 1, out := s2.out ++ [o.2] }
      else
        driverLoop dut flen fuel s2
    else some s1

/-- The tick loop run from `testcount = 0`, `num_received = 0`. -/
def driver (dut : Nat → Bool × Char) (flen : Int) : Option Driver :=
  driverLoop dut flen (LARGE_NUMBER + 1)
    { testcount := 0, num_received := 0, ticks := 0, out := [] }

/-- The number of ticks among the first `t` on which `o_wr` is set. -/
def readyCount (dut : Nat → Bool × Char) : Nat → Nat
  | 0 => 0
  | t + 1 => readyCount dut t + (if (dut t).1 = true then 1 else 0)

/-- The values of `o_data` on the ticks among the first `t` on which `o_wr` is
set, in tick order. -/
def readyBytes (dut : Nat → Bool × Char) : Nat → List Char
  | 0 => []
  | t + 1 => readyBytes dut t ++ (if (dut t).1 = true then [(dut t).2] else [])

/-! ## The program `main` -/

/-- What becomes of the call `write(childs_stdin[1], string, flen)` of line 202
on the blocking pipe to the child. -/
inductive WriteResult where
  /-- The call returns `n`: `n` bytes were accepted, or `n = -1` for an error. -/
  | returned (n : Int)
  /-- The child has closed its end of the pipe: after `k` bytes the parent is
  killed by `SIGPIPE`. -/
  | sigpipe (k : Nat)
  /-- The pipe is full and is not read any more: after `k` bytes the call never
  returns. -/
  | blocked (k : Nat)
  deriving DecidableEq, Repr

/-- What the program meets in its environment. -/
structure Env where
  /-- The argument count `argc`. -/
  argc : Nat
  /-- The argument `argv[1]`, read when `argc` is 2. -/
  argv1 : List Char
  /-- Whether `access(matchfile, R_OK)` returns 0. -/
  accessOk : Bool
  /-- Whether `fopen` returns a stream. -/
  fopenOk : Bool
  /-- The value `ftell` returns at the end of the file. -/
  ftell : Int
  /-- The bytes of the file, as `fread` finds them. -/
  file : List Char
  /-- Whether `pipe(childs_stdin)` returns 0. -/
  pipeInOk : Bool
  /-- Whether `pipe(childs_stdout)` returns 0. -/
  pipeOutOk : Bool
  /-- The value `fork` returns in this process. -/
  childPid : Int
  /-- Whether both calls of `malloc` return a buffer. -/
  mallocOk : Bool
  /-- The first contents of the buffer `rdbuf`. -/
  rdbuf : Nat → Char
  /-- The outcome of `write` at line 202. -/
  written : WriteResult
  /-- The results of the successive `read` calls on channel B. -/
  reads : List (List Char)
  /-- Whether `dup(childs_stdin[0])` gives `STDIN_FILENO` (child). -/
  dupInOk : Bool
  /-- Whether `dup(childs_stdout[1])` gives `STDOUT_FILENO` (child). -/
  dupOutOk : Bool
  /-- The receiver core, as seen by the child. -/
  dut : Nat → Bool × Char
  /-- The text `perror` appends for the current `errno`. -/
  errtext : List Char

/-- How the process ends. -/
inductive Status where
  /-- Ends by `exit(EXIT_SUCCESS)` or by reaching the end of `main`. -/
  | success
  /-- Ends by `exit(EXIT_FAILURE)`. -/
  | failure
  /-- Ends by a failed `assert`; its message on standard error is left out. -/
  | aborted
  /-- Ends killed by `SIGPIPE` inside `write`. -/
  | sigpipe
  /-- Does not end: `write` never returns. -/
  | blocked
  deriving DecidableEq, Repr

/-- What a run of the process leaves behind. -/
structure Run where
  /-- The characters written to standard output. -/
  stdout : List Char
  /-- The characters written to standard error. -/
  stderr : List Char
  /-- How the process ended. -/
  status : Status
  /-- Whether `kill(child_pid, SIGKILL)` was called. -/
  killed : Bool
  /-- The bytes that went onto channel A, the pipe to the child. -/
  chanA : List Char
  deriving DecidableEq, Repr

/-- The text of `usage()`. -/
def usageText : List Char :=
  ("USAGE: rxuart_tb [<filename.txt>]\n" ++ "\n" ++ "\tWhere ... \n" ++ "\n"
    ++ "\t<filename.txt>\t is the name of a file which will be \"transmitted\"\n"
    ++ "\t\tvia UART to the receiver under test.  The output will then be sent\n"
    ++ "\t\tboth to the receiver, then through the receiver to the standard\n"
    ++ "\t\toutput--but not before being compared against the original file.\n").toList

/-- The call `perror(s)`. -/
def perror (env : Env) (s : String) : List Char :=
  s.toList ++ ": ".toList ++ env.errtext ++ "\n".toList

/-- A run that ends by `exit(EXIT_FAILURE)` with `err` on standard error and
nothing on standard output (lines 73-85, and the child's lines 273-288). -/
def exitRun (err : List Char) : Run :=
  { stdout := [], stderr := err, status := Status.failure, killed := false, chanA := [] }

/-- A run that stops on a fault from line 106 on: the message on standard
error, `FAIL` on standard output, `exit(EXIT_FAILURE)`. -/
def failRun (err : List Char) : Run :=
  { stdout := "FAIL\n".toList, stderr := err, status := Status.failure, killed := false,
    chanA := [] }

/-- The bytes `fread(string, 1, flen, fp)` of line 191 stores in `string`. -/
def fread (env : Env) (flen : Int) : List Char := env.file.take flen.toNat

/-- A run that ends inside or right after `write`, with `sent` on channel A
and nothing printed. -/
def stopRun (status : Status) (sent : List Char) : Run :=
  { stdout := [], stderr := [], status := status, killed := false, chanA := sent }

/-- The end of the parent (lines 235-258) after the compare loop has left the
state `s`: the report, `kill` on a failure, and the end of `main`. -/
def verdictRun (s : Verifier) (sent : List Char) : Run :=
  { stdout := report s, stderr := [], status := Status.success,
    killed := decide (0 ≤ s.fail), chanA := sent }

/-- The parent from line 202 on, with `got` the bytes `fread` stored: `write`
is asked for the first `flen = strlen(string)` bytes of `string`;
`nr = write(...)` is asserted to equal `flen`; then the compare loop runs and
the verdict is printed. -/
def afterLoad (env : Env) (got : List Char) : WriteResult → Run
  | WriteResult.sigpipe k => stopRun Status.sigpipe ((transmitted got).take k)
  | WriteResult.blocked k => stopRun Status.blocked ((transmitted got).take k)
  | WriteResult.returned n =>
    if toInt32 n ≠ (verifierFlen got : Int) then
      stopRun Status.aborted ((transmitted got).take n.toNat)
    else
      verdictRun (compare (loadString got) (verifierFlen got) env.reads env.rdbuf)
        ((transmitted got).take n.toNat)

/-- The parent after the fork (lines 158-258): the two buffers are allocated;
`nr = fread(...)` is asserted to equal `flen`; `string[nr] = 0` and
`flen = strlen(string)`; then the transmission and the comparison. -/
def parent (env : Env) (flen : Int) : Run :=
  if ¬ env.mallocOk = true then
    failRun ("ERR Malloc failure --- cannot allocate space to read match file\n".toList
      ++ perror env "O/S Err:")
  else if toInt32 (fread env flen).length ≠ flen then
    stopRun Status.aborted []
  else
    afterLoad env (fread env flen) env.written

/-- The end of the child after the tick loop has left the state `d`:
`exit(EXIT_SUCCESS)`, with the bytes written by `putchar` on channel B, which
is the child's standard output. -/
def driverRun (d : Driver) : Run :=
  { stdout := d.out, stderr := [], status := Status.success, killed := false, chanA := [] }

/-- The child after the fork (lines 259-337).  The result is `none` only if the
bound in `driver` were too small. -/
def child (env : Env) (flen : Int) : Option Run :=
  if ¬ env.dupInOk = true then
    some (exitRun ("Could not create childs stdin\n".toList ++ perror env "O/S ERR"))
  else if ¬ env.dupOutOk = true then
    some (exitRun ("Could not create childs stdout\n".toList ++ perror env "O/S ERR"))
  else
    (driver env.dut flen).map driverRun

/-- The name of the reference file (lines 72-79). -/
def matchfile (env : Env) : List Char :=
  if env.argc = 2 then env.argv1 else "psalm.txt".toList

/-- The function `main`, in the process that `fork` leaves with `childPid`. -/
def main (env : Env) : Option Run :=
  if 2 < env.argc ∨ (env.argc = 2 ∧ ¬ (env.argv1.headD NUL).isAlpha = true) then
    some (exitRun usageText)
  else if (matchfile env).headD NUL = NUL ∨ ¬ env.accessOk = true then
    some (exitRun ("Could not open pattern file, ".toList ++ matchfile env ++ "\n".toList))
  else if ¬ env.fopenOk = true then
    some (failRun ("ERR - could not open ".toList ++ matchfile env ++ "\n".toList
      ++ perror env "O/S Err:"))
  else if env.ftell ≤ 0 then
    if env.ftell = 0 then some (failRun "ERR - zero length match file!\n".toList)
    else some (failRun ("ERR - getting file length\n".toList ++ perror env "O/S Err:"))
  else if ¬ env.pipeInOk = true ∨ ¬ env.pipeOutOk = true then
    some (failRun ("ERR setting up child pipes\n".toList ++ perror env "O/S Err:"))
  else if env.childPid < 0 then
    some (failRun ("ERR setting up child process fork\n".toList ++ perror env "O/S Err:"))
  else if env.childPid ≠ 0 then
    some (parent env env.ftell)
  else
    child env env.ftell

/-! ## Notions used to state the properties -/

/-- The first index at which the bytes `got`, laid out from index `base` on,
differ from `string`. -/
def firstDiff (string : List Char) : Nat → List Char → Option Nat
  | _, [] => none
  | base, c :: cs =>
    if c ≠ string.getD base NUL then some base else firstDiff string (base + 1) cs

/-- The first position, below both lengths, at which `stream` differs from
`ref`. -/
def mismatchIndex : List Char → List Char → Option Nat
  | [], _ => none
  | _, [] => none
  | r :: rs, c :: cs =>
    if c ≠ r then some 0 else (mismatchIndex rs cs).map (· + 1)

/-- The state after `read` has delivered `chunk` at offset `s.nr`. -/
def afterRead (flen : Nat) (s : Verifier) (chunk : List Char) : Verifier :=
  { s with
    rd := chunk.length
    rdbuf := store s.rdbuf s.nr chunk
    log := s.log ++ [Access.request s.nr (flen - s.nr)] }

/-- The state after lines 224-225, `rdbuf[rd+nr] = 0; nr += rd;`. -/
def afterChunk (s : Verifier) : Verifier :=
  { s with
    rdbuf := Function.update s.rdbuf (s.rd + s.nr) NUL
    log := s.log ++ [Access.rdbufAt (s.rd + s.nr)]
    nr := s.nr + s.rd }

/-- The read results `reads` are a way of cutting `stream` into chunks: every
`read` delivers at least one byte, and together they deliver `stream`. -/
def Splits (reads : List (List Char)) (stream : List Char) : Prop :=
  reads.flatten = stream ∧ ∀ c ∈ reads, c ≠ []

/-- The standard output the specification describes for the reference `ref`
and the decoded stream `stream`: the stream cut after the first mismatching
byte, or after `N` bytes, or at its end, then the verdict. -/
def expectedVerdict (ref stream : List Char) : List Char :=
  match mismatchIndex ref stream with
  | some k =>
    stream.take (k + 1) ++ "\n\n".toList
      ++ ("ERROR: Character ".toList ++ fmtInt k ++ " did not match\n".toList)
      ++ "       as shown above.\n".toList ++ "FAIL\n".toList
  | none =>
    stream.take ref.length ++ "\n\n".toList
      ++ ("SUCCESS - all ".toList ++ fmtInt (min ref.length stream.length : Nat)
          ++ " characters matched\n".toList)
      ++ "PASS\n".toList

/-- Whether an access respects the target count `flen` and the capacity `cap`
of the two buffers. -/
def Access.safe (flen cap : Nat) : Access → Prop
  | Access.request nr count => nr < flen ∧ 0 < count ∧ count ≤ flen - nr
  | Access.rdbufAt i => i < cap
  | Access.stringAt i => i < cap

/-- The number of comparisons `rdbuf[nr+i] != string[nr+i]` in a log. -/
def comparisons : List Access → Nat
  | [] => 0
  | Access.stringAt _ :: l => comparisons l + 1
  | _ :: l => comparisons l

/-- The two sentinel lines. -/
def IsSentinel (l : List Char) : Prop := l = "PASS".toList ∨ l = "FAIL".toList

/-- The text `out` ends in exactly one sentinel line: its last line is `PASS`
or `FAIL`, and what stands before that line is empty or ends in a complete line
that is not itself a sentinel line. -/
def EndsInOneSentinel (out : List Char) : Prop :=
  ∃ pre s, out = pre ++ s ++ ['\n'] ∧ IsSentinel s ∧
    (pre = [] ∨ pre.getLast? = some '\n') ∧
    ∀ t, IsSentinel t → ¬ (t ++ ['\n']) <:+ pre

/-- The run gets as far as the fork: the arguments are accepted, `access` and
`fopen` succeed, `ftell` gives a positive length and both pipes are made. -/
def ReachesFork (env : Env) : Prop :=
  ¬ (2 < env.argc ∨ (env.argc = 2 ∧ ¬ (env.argv1.headD NUL).isAlpha = true)) ∧
  ¬ ((matchfile env).headD NUL = NUL ∨ ¬ env.accessOk = true) ∧
  env.fopenOk = true ∧ 0 < env.ftell ∧ env.pipeInOk = true ∧ env.pipeOutOk = true

/-- A run of the parent on the two-byte reference `AB`, decoded as `AB`, with
everything going well. -/
def plainEnv : Env :=
  { argc := 1, argv1 := [], accessOk := true, fopenOk := true, ftell := 2,
    file := ['A', 'B'], pipeInOk := true, pipeOutOk := true, childPid := 7,
    mallocOk := true, rdbuf := fun _ => NUL, written := WriteResult.returned 2,
    reads := [['A', 'B']], dupInOk := true, dupOutOk := true,
    dut := fun t => (true, if t = 0 then 'A' else 'B'), errtext := [] }

/-- A run of the parent on the three-byte reference `A`, `0`, `B`: `write` is
asked for one byte and accepts it, and one byte `A` comes back. -/
def nulEnv : Env :=
  { plainEnv with
    ftell := 3, file := ['A', NUL, 'B'], written := WriteResult.returned 1,
    reads := [['A']] }

/-- A run of the parent on a reference of `2^31` bytes `a`. -/
def hugeEnv : Env :=
  { plainEnv with
    ftell := 2147483648, file := List.replicate 2147483648 'a',
    written := WriteResult.returned 2147483648, reads := [] }

/-- A run started as `rxuart_tb missing.txt` where no such file exists. -/
def missingFileEnv : Env :=
  { plainEnv with argc := 2, argv1 := "missing.txt".toList, accessOk := false }

/-! ## The compare loop: what it computes -/

theorem firstDiff_bounds (string : List Char) :
    ∀ (got : List Char) (base k : Nat), firstDiff string base got = some k →
      base ≤ k ∧ k < base + got.length := by
  intro got
  induction got with
  | nil => intro base k h; simp [firstDiff] at h
  | cons c cs ih =>
    intro base k h
    simp only [firstDiff] at h
    split at h
    · simp only [Option.some.injEq] at h
      subst h
      simp
    · have := ih (base + 1) k h
      simp only [List.length_cons]
      omega

theorem firstDiff_append (string : List Char) :
    ∀ (a b : List Char) (base : Nat),
      firstDiff string base (a ++ b) =
        match firstDiff string base a with
        | some k => some k
        | none => firstDiff string (base + a.length) b := by
  intro a
  induction a with
  | nil => intro b base; simp [firstDiff]
  | cons c cs ih =>
    intro b base
    have hlen : base + 1 + cs.length = base + (c :: cs).length := by
      simp only [List.length_cons]; omega
    by_cases hc : c ≠ string.getD base NUL
    · simp only [List.cons_append, firstDiff, if_pos hc]
    · have e1 : firstDiff string base (c :: cs ++ b) = firstDiff string (base + 1) (cs ++ b) := by
        simp only [List.cons_append, firstDiff, if_neg hc, List.append_eq]
      have e2 : firstDiff string base (c :: cs) = firstDiff string (base + 1) cs := by
        simp only [firstDiff, if_neg hc]
      rw [e1, e2, ih b (base + 1), hlen]

theorem forLoop_spec (string : List Char) :
    ∀ (got : List Char) (i : Nat) (s : Verifier),
      (∀ j, j < got.length → s.rdbuf (s.nr + i + j) = got.getD j NUL) →
      (forLoop string got.length i s).nr = s.nr ∧
      (forLoop string got.length i s).rd = s.rd ∧
      (forLoop string got.length i s).rdbuf = s.rdbuf ∧
      (∀ k, firstDiff string (s.nr + i) got = some k →
        (forLoop string got.length i s).fail = (k : Int) ∧
        (forLoop string got.length i s).out = s.out ++ got.take (k + 1 - (s.nr + i))) ∧
      (firstDiff string (s.nr + i) got = none →
        (forLoop string got.length i s).fail = s.fail ∧
        (forLoop string got.length i s).out = s.out ++ got) := by
  intro got
  induction got with
  | nil =>
    intro i s _
    simp [forLoop, firstDiff]
  | cons c cs ih =>
    intro i s h
    have h0 : s.rdbuf (s.nr + i) = c := by
      have := h 0 (by simp)
      simpa using this
    simp only [List.length_cons, forLoop, firstDiff, h0]
    by_cases hc : c ≠ string.getD (s.nr + i) NUL
    · rw [if_pos hc, if_pos hc]
      refine ⟨rfl, rfl, rfl, ?_, ?_⟩
      · intro k hk
        simp only [Option.some.injEq] at hk
        subst hk
        simp
      · intro hk; simp at hk
    · rw [if_neg hc, if_neg hc]
      have h1 : ∀ j, j < cs.length →
          s.rdbuf (s.nr + (i + 1) + j) = cs.getD j NUL := by
        intro j hj
        have := h (j + 1) (by simp; omega)
        simp only [List.getD_cons_succ] at this
        rw [← this]
        congr 1
        omega
      obtain ⟨e1, e2, e3, e4, e5⟩ := ih (i + 1)
        { s with out := s.out ++ [c],
                 log := s.log ++ [Access.rdbufAt (s.nr + i)]
                   ++ [Access.rdbufAt (s.nr + i), Access.stringAt (s.nr + i)] } h1
      refine ⟨e1, e2, e3, ?_, ?_⟩
      · intro k hk
        have hk1 : firstDiff string (s.nr + (i + 1)) cs = some k := by
          rw [← hk]; congr 1
        obtain ⟨f1, f2⟩ := e4 k hk1
        have hb := firstDiff_bounds string cs _ k hk1
        refine ⟨f1, ?_⟩
        rw [f2]
        have : k + 1 - (s.nr + i) = (k + 1 - (s.nr + (i + 1))) + 1 := by omega
        rw [this]
        simp
      · intro hk
        have hk1 : firstDiff string (s.nr + (i + 1)) cs = none := by
          rw [← hk]; congr 1
        obtain ⟨f1, f2⟩ := e5 hk1
        refine ⟨f1, ?_⟩
        rw [f2]
        simp

theorem whileLoop_step (string : List Char) (flen : Nat) (pending : List Char)
    (rest : List (List Char)) (s : Verifier) (hlt : s.nr < flen) (hne : pending ≠ []) :
    whileLoop string flen (pending :: rest) s =
      if 0 ≤ (forLoop string (read pending (flen - s.nr)).length 0
                (afterRead flen s (read pending (flen - s.nr)))).fail then
        forLoop string (read pending (flen - s.nr)).length 0
          (afterRead flen s (read pending (flen - s.nr)))
      else
        whileLoop string flen rest
          (afterChunk (forLoop string (read pending (flen - s.nr)).length 0
            (afterRead flen s (read pending (flen - s.nr))))) := by
  have hpos : 0 < (read pending (flen - s.nr)).length := by
    cases pending with
    | nil => exact absurd rfl hne
    | cons c cs =>
      simp only [read, List.length_take, List.length_cons]
      omega
  have hrd := (forLoop_spec string (read pending (flen - s.nr)) 0
    (afterRead flen s (read pending (flen - s.nr))) (by
      intro j hj
      simp only [afterRead, store, Nat.add_zero]
      rw [if_pos ⟨by omega, by omega⟩]
      congr 1
      omega)).2.1
  rw [whileLoop, if_pos hlt]
  simp only [afterRead, afterChunk] at hrd ⊢
  rw [if_pos hpos]
  split_ifs with hf h2
  · rfl
  · exfalso
    rw [hrd] at h2
    omega
  · rfl

theorem read_take_flatten (pending : List Char) (rest : List (List Char)) (n : Nat) :
    ((pending :: rest).flatten).take n =
      read pending n ++ rest.flatten.take (n - (read pending n).length) := by
  simp only [List.flatten_cons, read, List.take_append_eq_append_take, List.length_take]
  congr 2
  omega

theorem whileLoop_spec (string : List Char) (flen : Nat) :
    ∀ (reads : List (List Char)) (s : Verifier),
      (∀ c ∈ reads, c ≠ []) → s.fail < 0 → s.nr ≤ flen →
      (∀ k, firstDiff string s.nr (reads.flatten.take (flen - s.nr)) = some k →
        (whileLoop string flen reads s).fail = (k : Int) ∧
        (whileLoop string flen reads s).out
          = s.out ++ (reads.flatten.take (flen - s.nr)).take (k + 1 - s.nr)) ∧
      (firstDiff string s.nr (reads.flatten.take (flen - s.nr)) = none →
        (whileLoop string flen reads s).fail = s.fail ∧
        (whileLoop string flen reads s).nr
          = s.nr + (reads.flatten.take (flen - s.nr)).length ∧
        (whileLoop string flen reads s).out = s.out ++ reads.flatten.take (flen - s.nr)) := by
  intro reads
  induction reads with
  | nil =>
    intro s _ _ _
    simp only [List.flatten_nil, List.take_nil, firstDiff, whileLoop]
    refine ⟨fun k hk => by simp at hk, fun _ => ?_⟩
    split_ifs <;> simp
  | cons pending rest ih =>
    intro s hne hfail hnr
    have hp : pending ≠ [] := hne pending (List.mem_cons_self _ _)
    have hrest : ∀ c ∈ rest, c ≠ [] := fun c hc => hne c (List.mem_cons_of_mem _ hc)
    by_cases hlt : s.nr < flen
    · have hchunk : (read pending (flen - s.nr)).length ≤ flen - s.nr := by
        simp only [read, List.length_take]; omega
      have hspec := forLoop_spec string (read pending (flen - s.nr)) 0
        (afterRead flen s (read pending (flen - s.nr))) (by
          intro j hj
          simp only [afterRead, store, Nat.add_zero]
          rw [if_pos ⟨by omega, by omega⟩]
          congr 1
          omega)
      rw [whileLoop_step string flen pending rest s hlt hp, read_take_flatten,
        firstDiff_append]
      generalize read pending (flen - s.nr) = chunk at hchunk hspec ⊢
      generalize forLoop string chunk.length 0 (afterRead flen s chunk) = s2 at hspec ⊢
      obtain ⟨e1, e2, _, e4, e5⟩ := hspec
      have e1 : s2.nr = s.nr := e1
      have e2 : s2.rd = chunk.length := e2
      have e4 : ∀ k, firstDiff string s.nr chunk = some k →
          s2.fail = (k : Int) ∧ s2.out = s.out ++ chunk.take (k + 1 - s.nr) := e4
      have e5 : firstDiff string s.nr chunk = none →
          s2.fail = s.fail ∧ s2.out = s.out ++ chunk := e5
      cases hfd : firstDiff string s.nr chunk with
      | some k0 =>
        obtain ⟨f1, f2⟩ := e4 k0 hfd
        have hb := firstDiff_bounds string _ _ _ hfd
        rw [if_pos (by rw [f1]; exact Int.natCast_nonneg k0)]
        refine ⟨?_, fun hk => by simp at hk⟩
        intro k hk
        simp only [Option.some.injEq] at hk
        subst hk
        refine ⟨f1, ?_⟩
        rw [f2, List.take_append_of_le_length (by omega)]
      | none =>
        obtain ⟨f1, f2⟩ := e5 hfd
        rw [if_neg (by rw [f1]; omega)]
        have hn : (afterChunk s2).nr = s.nr + chunk.length := by
          simp only [afterChunk]; rw [e1, e2]
        have ho : (afterChunk s2).out = s.out ++ chunk := f2
        have hf : (afterChunk s2).fail = s.fail := f1
        obtain ⟨g1, g2⟩ := ih (afterChunk s2) hrest (by rw [hf]; exact hfail)
          (by rw [hn]; omega)
        rw [hn, ho] at g1
        rw [hn, ho, hf] at g2
        have hsub : flen - (s.nr + chunk.length) = flen - s.nr - chunk.length := by omega
        rw [hsub] at g1 g2
        refine ⟨?_, ?_⟩
        · intro k hk
          have hk : firstDiff string (s.nr + chunk.length)
              (List.take (flen - s.nr - chunk.length) rest.flatten) = some k := hk
          obtain ⟨h1, h2⟩ := g1 k hk
          have hb := firstDiff_bounds string _ _ _ hk
          refine ⟨h1, ?_⟩
          rw [h2, List.take_append_eq_append_take,
            List.take_of_length_le (by omega : chunk.length ≤ k + 1 - s.nr),
            List.append_assoc]
          congr 3
          omega
        · intro hk
          have hk : firstDiff string (s.nr + chunk.length)
              (List.take (flen - s.nr - chunk.length) rest.flatten) = none := hk
          obtain ⟨h1, h2, h3⟩ := g2 hk
          refine ⟨h1, ?_, ?_⟩
          · rw [h2, List.length_append]; omega
          · rw [h3, List.append_assoc]
    · rw [whileLoop, if_neg hlt]
      have : flen - s.nr = 0 := by omega
      rw [this]
      simp [firstDiff]

theorem firstDiff_mismatchIndex :
    ∀ (r pre pad stream : List Char),
      firstDiff (pre ++ r ++ pad) pre.length (stream.take r.length)
        = (mismatchIndex r stream).map (· + pre.length) := by
  intro r
  induction r with
  | nil => intro pre pad stream; simp [firstDiff, mismatchIndex]
  | cons x rs ih =>
    intro pre pad stream
    cases stream with
    | nil => simp [firstDiff, mismatchIndex]
    | cons c cs =>
      have hx : (pre ++ x :: rs ++ pad).getD pre.length NUL = x := by
        rw [List.append_assoc, List.getD_eq_getElem?_getD,
          List.getElem?_append_right (Nat.le_refl _)]
        simp
      have hih := ih (pre ++ [x]) pad cs
      simp only [List.append_assoc, List.singleton_append, List.length_append,
        List.length_singleton] at hih
      simp only [List.length_cons, List.take_succ_cons, firstDiff, mismatchIndex, hx]
      by_cases hc : c ≠ x
      · rw [if_pos hc, if_pos hc]; simp
      · rw [if_neg hc, if_neg hc]
        simp only [List.append_assoc, List.cons_append] at hih ⊢
        rw [hih]
        cases mismatchIndex rs cs with
        | none => rfl
        | some k => simp only [Option.map_some']; congr 1; omega

theorem mismatchIndex_lt :
    ∀ (r stream : List Char) (k : Nat), mismatchIndex r stream = some k →
      k < r.length ∧ k < stream.length := by
  intro r
  induction r with
  | nil => intro stream k h; simp [mismatchIndex] at h
  | cons x rs ih =>
    intro stream k h
    cases stream with
    | nil => simp [mismatchIndex] at h
    | cons c cs =>
      simp only [mismatchIndex] at h
      split at h
      · simp only [Option.some.injEq] at h
        subst h
        simp
      · cases hm : mismatchIndex rs cs with
        | none => rw [hm] at h; simp at h
        | some j =>
          rw [hm] at h
          simp only [Option.map_some', Option.some.injEq] at h
          have := ih cs j hm
          simp only [List.length_cons]
          omega

/-- The compare loop on the reference `ref` (held in a buffer `ref ++ pad`)
when the reads cut the stream `reads.flatten` into non-empty chunks. -/
theorem compare_spec (ref pad : List Char) (reads : List (List Char)) (rdbuf : Nat → Char)
    (hne : ∀ c ∈ reads, c ≠ []) :
    (∀ k, mismatchIndex ref reads.flatten = some k →
      (compare (ref ++ pad) ref.length reads rdbuf).fail = (k : Int) ∧
      (compare (ref ++ pad) ref.length reads rdbuf).out = reads.flatten.take (k + 1)) ∧
    (mismatchIndex ref reads.flatten = none →
      (compare (ref ++ pad) ref.length reads rdbuf).fail = -1 ∧
      (compare (ref ++ pad) ref.length reads rdbuf).nr = min ref.length reads.flatten.length ∧
      (compare (ref ++ pad) ref.length reads rdbuf).out = reads.flatten.take ref.length) := by
  have hb := firstDiff_mismatchIndex ref [] pad reads.flatten
  simp only [List.nil_append, List.length_nil, Nat.add_zero] at hb
  obtain ⟨g1, g2⟩ := whileLoop_spec (ref ++ pad) ref.length reads (initial rdbuf) hne
    (by simp [initial]) (by simp [initial])
  simp only [initial, Nat.sub_zero, List.nil_append, Nat.zero_add] at g1 g2
  refine ⟨?_, ?_⟩
  · intro k hk
    have hlt := mismatchIndex_lt ref _ k hk
    rw [hk] at hb
    simp only [Option.map_some'] at hb
    obtain ⟨h1, h2⟩ := g1 k hb
    refine ⟨h1, ?_⟩
    rw [compare, initial, h2, List.take_take]
    congr 1
    omega
  · intro hk
    rw [hk] at hb
    simp only [Option.map_none'] at hb
    obtain ⟨h1, h2, h3⟩ := g2 hb
    refine ⟨h1, ?_, h3⟩
    rw [compare, initial, h2, List.length_take]

theorem mismatchIndex_self : ∀ r : List Char, mismatchIndex r r = none := by
  intro r
  induction r with
  | nil => rfl
  | cons x rs ih => simp [mismatchIndex, ih]

theorem mismatchIndex_first :
    ∀ (k : Nat) (ref stream : List Char) (hk : k < ref.length) (hs : k < stream.length),
      stream.take k = ref.take k → stream[k] ≠ ref[k] →
      mismatchIndex ref stream = some k := by
  intro k
  induction k with
  | zero =>
    intro ref stream hk hs _ hd
    cases ref with
    | nil => simp at hk
    | cons x rs =>
      cases stream with
      | nil => simp at hs
      | cons c cs =>
        simp only [List.getElem_cons_zero] at hd
        simp only [mismatchIndex, if_pos hd]
  | succ n ih =>
    intro ref stream hk hs hp hd
    cases ref with
    | nil => simp at hk
    | cons x rs =>
      cases stream with
      | nil => simp at hs
      | cons c cs =>
        simp only [List.take_succ_cons, List.cons.injEq] at hp
        simp only [List.getElem_cons_succ] at hd
        simp only [List.length_cons] at hk hs
        have := ih rs cs (by omega) (by omega) hp.2 hd
        simp only [mismatchIndex, this]
        rw [if_neg (by simp [hp.1])]
        rfl

theorem report_pass (s : Verifier) (h : s.fail < 0) :
    report s = s.out ++ "\n\n".toList
      ++ ("SUCCESS - all ".toList ++ fmtInt s.nr ++ " characters matched\n".toList)
      ++ "PASS\n".toList := by
  simp only [report, if_pos h]

theorem report_fail (s : Verifier) (h : 0 ≤ s.fail) :
    report s = s.out ++ "\n\n".toList
      ++ ("ERROR: Character ".toList ++ fmtInt s.fail ++ " did not match\n".toList)
      ++ "       as shown above.\n".toList ++ "FAIL\n".toList := by
  simp only [report, if_neg (not_lt.mpr h)]

theorem verdict_expected (ref pad stream : List Char) (reads : List (List Char))
    (rdbuf : Nat → Char) (h : Splits reads stream) :
    verdict (ref ++ pad) ref.length reads rdbuf = expectedVerdict ref stream := by
  obtain ⟨hj, hne⟩ := h
  subst hj
  obtain ⟨g1, g2⟩ := compare_spec ref pad reads rdbuf hne
  unfold verdict expectedVerdict
  cases hm : mismatchIndex ref reads.flatten with
  | some k =>
    obtain ⟨h1, h2⟩ := g1 k hm
    rw [report_fail _ (by rw [h1]; exact Int.natCast_nonneg k), h1, h2]
  | none =>
    obtain ⟨h1, h2, h3⟩ := g2 hm
    rw [report_pass _ (by rw [h1]; decide), h2, h3]

/-- C2: when the bytes arriving on channel B are exactly the reference bytes in
order, cut into non-empty read chunks in any way, the compare loop ends with
`fail = -1` and `nr = N`, and the verifier prints the echoed bytes, the
separator, `SUCCESS - all N characters matched` and `PASS`. -/
theorem pass_on_exact_stream (ref pad : List Char) (reads : List (List Char))
    (rdbuf : Nat → Char) (h : Splits reads ref) :
    (compare (ref ++ pad) ref.length reads rdbuf).fail = -1 ∧
    (compare (ref ++ pad) ref.length reads rdbuf).nr = ref.length ∧
    verdict (ref ++ pad) ref.length reads rdbuf =
      ref ++ "\n\n".toList
        ++ ("SUCCESS - all ".toList ++ fmtInt ref.length ++ " characters matched\n".toList)
        ++ "PASS\n".toList := by
  have hv := verdict_expected ref pad ref reads rdbuf h
  obtain ⟨hj, hne⟩ := h
  obtain ⟨_, g2⟩ := compare_spec ref pad reads rdbuf hne
  rw [hj] at g2
  obtain ⟨h1, h2, _⟩ := g2 (mismatchIndex_self ref)
  refine ⟨h1, by rw [h2, Nat.min_self], ?_⟩
  rw [hv, expectedVerdict, mismatchIndex_self]
  simp only [List.take_length, Nat.min_self]

/-- The scenario of C2 in the specification: reference `AB`, decoded `AB`,
read one byte at a time. -/
theorem pass_on_exact_stream_witness :
    (compare ("AB".toList ++ [NUL]) 2 [['A'], ['B']] (fun _ => NUL)).fail = -1 ∧
    (compare ("AB".toList ++ [NUL]) 2 [['A'], ['B']] (fun _ => NUL)).nr = 2 ∧
    verdict ("AB".toList ++ [NUL]) 2 [['A'], ['B']] (fun _ => NUL) =
      "AB\n\nSUCCESS - all 2 characters matched\nPASS\n".toList :=
  pass_on_exact_stream "AB".toList [NUL] [['A'], ['B']] (fun _ => NUL)
    ⟨by decide, by decide⟩

/-- C3: when the decoded stream first differs from the reference at position
`k < N` (and holds at least `k + 1` bytes), then for every way of cutting the
stream into read chunks the compare loop records `fail = k`, and the verifier
prints the stream up to and including byte `k`, the separator,
`ERROR: Character k did not match`, `       as shown above.` and `FAIL`. -/
theorem fail_at_first_mismatch (ref pad stream : List Char) (reads : List (List Char))
    (rdbuf : Nat → Char) (k : Nat) (hk : k < ref.length) (hs : k < stream.length)
    (hpre : stream.take k = ref.take k) (hdiff : stream[k] ≠ ref[k])
    (h : Splits reads stream) :
    (compare (ref ++ pad) ref.length reads rdbuf).fail = (k : Int) ∧
    verdict (ref ++ pad) ref.length reads rdbuf =
      stream.take (k + 1) ++ "\n\n".toList
        ++ ("ERROR: Character ".toList ++ fmtInt k ++ " did not match\n".toList)
        ++ "       as shown above.\n".toList ++ "FAIL\n".toList := by
  have hm := mismatchIndex_first k ref stream hk hs hpre hdiff
  have hv := verdict_expected ref pad stream reads rdbuf h
  obtain ⟨hj, hne⟩ := h
  obtain ⟨g1, _⟩ := compare_spec ref pad reads rdbuf hne
  rw [hj] at g1
  refine ⟨(g1 k hm).1, ?_⟩
  rw [hv, expectedVerdict, hm]

/-- The scenario of C3 in the specification: reference `AB`, decoded `AC`. -/
theorem fail_at_first_mismatch_witness :
    (compare ("AB".toList ++ [NUL]) 2 [['A', 'C']] (fun _ => NUL)).fail = 1 ∧
    verdict ("AB".toList ++ [NUL]) 2 [['A', 'C']] (fun _ => NUL) =
      "AC\n\nERROR: Character 1 did not match\n       as shown above.\nFAIL\n".toList :=
  fail_at_first_mismatch "AB".toList [NUL] "AC".toList [['A', 'C']] (fun _ => NUL) 1
    (by decide) (by decide) (by decide) (by decide) ⟨by decide, by decide⟩

/-- C10: for a fixed reference and a fixed decoded stream, two runs of the
verifier print the same standard output (echoed bytes, reported count or
mismatch index, verdict line) whatever way the stream is cut into read chunks
and whatever the buffer held before: the output is `expectedVerdict ref stream`,
the stream cut after its first mismatching byte, or after `N` bytes, or at its
end, followed by the verdict. -/
theorem verdict_independent_of_chunking (ref pad stream : List Char)
    (reads1 reads2 : List (List Char)) (rdbuf1 rdbuf2 : Nat → Char)
    (h1 : Splits reads1 stream) (h2 : Splits reads2 stream) :
    verdict (ref ++ pad) ref.length reads1 rdbuf1
      = verdict (ref ++ pad) ref.length reads2 rdbuf2 ∧
    verdict (ref ++ pad) ref.length reads1 rdbuf1 = expectedVerdict ref stream := by
  rw [verdict_expected ref pad stream reads1 rdbuf1 h1,
    verdict_expected ref pad stream reads2 rdbuf2 h2]
  exact ⟨rfl, rfl⟩

/-- Two ways of reading the stream `ABCD` against the reference `ABXD`. -/
theorem verdict_independent_of_chunking_witness :
    verdict ("ABXD".toList ++ [NUL]) 4 [['A'], ['B', 'C'], ['D']] (fun _ => NUL)
      = verdict ("ABXD".toList ++ [NUL]) 4 [['A', 'B', 'C', 'D']] (fun _ => 'z') ∧
    verdict ("ABXD".toList ++ [NUL]) 4 [['A'], ['B', 'C'], ['D']] (fun _ => NUL)
      = expectedVerdict "ABXD".toList "ABCD".toList :=
  verdict_independent_of_chunking "ABXD".toList [NUL] "ABCD".toList
    [['A'], ['B', 'C'], ['D']] [['A', 'B', 'C', 'D']] (fun _ => NUL) (fun _ => 'z')
    ⟨by decide, by decide⟩ ⟨by decide, by decide⟩

/-! ## The compare loop: indices and counts -/

theorem comparisons_append : ∀ (a b : List Access),
    comparisons (a ++ b) = comparisons a + comparisons b := by
  intro a
  induction a with
  | nil => intro b; simp [comparisons]
  | cons x xs ih =>
    intro b
    have h := ih b
    cases x <;> simp only [List.cons_append, comparisons, List.append_eq, h]
    omega

theorem forLoop_log (string : List Char) :
    ∀ (todo i : Nat) (s : Verifier),
      (forLoop string todo i s).nr = s.nr ∧ (forLoop string todo i s).rd = s.rd ∧
      ∃ extra, (forLoop string todo i s).log = s.log ++ extra ∧
        (∀ a ∈ extra, ∃ j, (a = Access.rdbufAt j ∨ a = Access.stringAt j) ∧
          j < s.nr + i + todo) ∧
        comparisons extra ≤ todo := by
  intro todo
  induction todo with
  | zero =>
    intro i s
    exact ⟨rfl, rfl, [], by simp [forLoop], by simp, by simp [comparisons]⟩
  | succ n ih =>
    intro i s
    rw [forLoop]
    simp only []
    split_ifs with hc
    · refine ⟨rfl, rfl, [Access.rdbufAt (s.nr + i), Access.rdbufAt (s.nr + i),
        Access.stringAt (s.nr + i)], by simp, ?_, by simp [comparisons]⟩
      intro a ha
      refine ⟨s.nr + i, ?_, by omega⟩
      simp only [List.mem_cons, List.mem_singleton, List.not_mem_nil, or_false] at ha
      rcases ha with h | h | h
      · exact Or.inl h
      · exact Or.inl h
      · exact Or.inr h
    · obtain ⟨e1, e2, extra, e3, e4, e5⟩ := ih (i + 1)
        { s with out := s.out ++ [s.rdbuf (s.nr + i)],
                 log := s.log ++ [Access.rdbufAt (s.nr + i)]
                   ++ [Access.rdbufAt (s.nr + i), Access.stringAt (s.nr + i)] }
      refine ⟨e1, e2, [Access.rdbufAt (s.nr + i), Access.rdbufAt (s.nr + i),
        Access.stringAt (s.nr + i)] ++ extra, ?_, ?_, ?_⟩
      · rw [e3]; simp
      · intro a ha
        rw [List.mem_append] at ha
        rcases ha with ha | ha
        · refine ⟨s.nr + i, ?_, by omega⟩
          simp only [List.mem_cons, List.mem_singleton, List.not_mem_nil, or_false] at ha
          rcases ha with h | h | h
          · exact Or.inl h
          · exact Or.inl h
          · exact Or.inr h
        · obtain ⟨j, hj, hlt⟩ := e4 a ha
          exact ⟨j, hj, by simp only [] at hlt; omega⟩
      · rw [comparisons_append]
        simp only [comparisons]
        omega

theorem whileLoop_cons (string : List Char) (flen : Nat) (pending : List Char)
    (rest : List (List Char)) (s : Verifier) :
    whileLoop string flen (pending :: rest) s =
      if s.nr < flen then
        if 0 < (read pending (flen - s.nr)).length then
          if 0 ≤ (forLoop string (read pending (flen - s.nr)).length 0
                    (afterRead flen s (read pending (flen - s.nr)))).fail then
            forLoop string (read pending (flen - s.nr)).length 0
              (afterRead flen s (read pending (flen - s.nr)))
          else if (forLoop string (read pending (flen - s.nr)).length 0
                    (afterRead flen s (read pending (flen - s.nr)))).rd ≤ 0 then
            { afterChunk (forLoop string (read pending (flen - s.nr)).length 0
                (afterRead flen s (read pending (flen - s.nr)))) with
              out := (forLoop string (read pending (flen - s.nr)).length 0
                (afterRead flen s (read pending (flen - s.nr)))).out
                  ++ "\n\nERROR: Stream ended early\n".toList
              fail := (((forLoop string (read pending (flen - s.nr)).length 0
                (afterRead flen s (read pending (flen - s.nr)))).nr
                + (forLoop string (read pending (flen - s.nr)).length 0
                (afterRead flen s (read pending (flen - s.nr)))).rd : Nat) : Int) }
          else
            whileLoop string flen rest
              (afterChunk (forLoop string (read pending (flen - s.nr)).length 0
                (afterRead flen s (read pending (flen - s.nr)))))
        else afterRead flen s (read pending (flen - s.nr))
      else s := by
  rw [whileLoop]
  rfl

theorem whileLoop_safe (string : List Char) (flen cap : Nat) (hcap : flen < cap) :
    ∀ (reads : List (List Char)) (s : Verifier),
      s.nr ≤ flen → (∀ a ∈ s.log, a.safe flen cap) → comparisons s.log ≤ s.nr →
      (whileLoop string flen reads s).nr ≤ flen ∧
      (∀ a ∈ (whileLoop string flen reads s).log, a.safe flen cap) ∧
      comparisons (whileLoop string flen reads s).log ≤ flen := by
  intro reads
  induction reads with
  | nil =>
    intro s hnr hlog hcmp
    rw [whileLoop]
    split_ifs with hlt
    · refine ⟨hnr, ?_, ?_⟩
      · intro a ha
        simp only [List.mem_append, List.mem_singleton] at ha
        rcases ha with ha | ha
        · exact hlog a ha
        · subst ha
          exact ⟨hlt, by omega, le_refl _⟩
      · simp only [comparisons_append, comparisons]
        omega
    · exact ⟨hnr, hlog, by omega⟩
  | cons pending rest ih =>
    intro s hnr hlog hcmp
    rw [whileLoop_cons]
    by_cases hlt : s.nr < flen
    · rw [if_pos hlt]
      have hchunk : (read pending (flen - s.nr)).length ≤ flen - s.nr := by
        simp only [read, List.length_take]; omega
      have hreq : ∀ a ∈ (afterRead flen s (read pending (flen - s.nr))).log,
          a.safe flen cap := by
        intro a ha
        simp only [afterRead, List.mem_append, List.mem_singleton] at ha
        rcases ha with ha | ha
        · exact hlog a ha
        · subst ha
          exact ⟨by omega, by omega, le_refl _⟩
      obtain ⟨e1, e2, extra, e3, e4, e5⟩ := forLoop_log string
        (read pending (flen - s.nr)).length 0 (afterRead flen s (read pending (flen - s.nr)))
      generalize read pending (flen - s.nr) = chunk at hchunk hreq e1 e2 e3 e4 e5 ⊢
      generalize forLoop string chunk.length 0 (afterRead flen s chunk) = s2
        at e1 e2 e3 e4 e5 ⊢
      have e1 : s2.nr = s.nr := e1
      have e2 : s2.rd = chunk.length := e2
      have e3 : s2.log = s.log ++ [Access.request s.nr (flen - s.nr)] ++ extra := e3
      have e4 : ∀ a ∈ extra, ∃ j, (a = Access.rdbufAt j ∨ a = Access.stringAt j) ∧
          j < s.nr + chunk.length := by
        intro a ha
        obtain ⟨j, hj, hlt⟩ := e4 a ha
        exact ⟨j, hj, by simpa [afterRead] using hlt⟩
      have hs2 : ∀ a ∈ s2.log, a.safe flen cap := by
        intro a ha
        rw [e3, List.mem_append] at ha
        rcases ha with ha | ha
        · exact hreq a ha
        · obtain ⟨j, hj, hlt⟩ := e4 a ha
          rcases hj with hj | hj
          · subst hj
            show j < cap
            omega
          · subst hj
            show j < cap
            omega
      have hc2 : comparisons s2.log ≤ s.nr + chunk.length := by
        rw [e3, comparisons_append, comparisons_append]
        simp only [comparisons]
        omega
      have hlog3 : ∀ a ∈ (afterChunk s2).log, a.safe flen cap := by
        intro a ha
        simp only [afterChunk, List.mem_append, List.mem_singleton] at ha
        rcases ha with ha | ha
        · exact hs2 a ha
        · subst ha
          show s2.rd + s2.nr < cap
          omega
      have hc3 : comparisons (afterChunk s2).log ≤ (afterChunk s2).nr := by
        simp only [afterChunk, comparisons_append, comparisons]
        omega
      have hn3 : (afterChunk s2).nr ≤ flen := by
        simp only [afterChunk]; omega
      split_ifs with hpos hf hdead
      · exact ⟨by omega, hs2, by omega⟩
      · exact ⟨hn3, hlog3, by
          have : comparisons (afterChunk s2).log ≤ flen := by omega
          exact this⟩
      · exact ih (afterChunk s2) hn3 hlog3 hc3
      · exact ⟨hnr, hreq, by
          simp only [afterRead, comparisons_append, comparisons]; omega⟩
    · rw [if_neg hlt]
      exact ⟨hnr, hlog, by omega⟩

theorem strlen_loadString_le : ∀ got : List Char, strlen (loadString got) ≤ got.length := by
  intro got
  induction got with
  | nil => simp [loadString, strlen]
  | cons c cs ih =>
    simp only [loadString, List.cons_append, strlen, List.length_cons, List.append_eq] at ih ⊢
    split_ifs
    · omega
    · omega

/-- C8: in the compare loop run on the loaded reference, whatever the reads
deliver (never more than the requested count, by `read`), the offset stays
within `0 ≤ nr ≤ N`; every `read` is issued at an offset `nr < N` for a count
between 1 and `N - nr`; every index used on `rdbuf` and on `string`, the
terminator write `rdbuf[rd+nr]` included, is below the allocated capacity, the
file length plus 2; and at most `N` bytes are compared. -/
theorem compare_within_bounds (got : List Char) (reads : List (List Char))
    (rdbuf : Nat → Char) :
    (compare (loadString got) (verifierFlen got) reads rdbuf).nr ≤ verifierFlen got ∧
    (∀ a ∈ (compare (loadString got) (verifierFlen got) reads rdbuf).log,
      a.safe (verifierFlen got) (got.length + 2)) ∧
    comparisons (compare (loadString got) (verifierFlen got) reads rdbuf).log
      ≤ verifierFlen got := by
  have hle : verifierFlen got < got.length + 2 := by
    have := strlen_loadString_le got
    unfold verifierFlen
    omega
  exact whileLoop_safe (loadString got) (verifierFlen got) (got.length + 2) hle reads
    (initial rdbuf) (Nat.zero_le _) (by simp [initial]) (by simp [initial, comparisons])

/-! ## The driver's tick loop -/

theorem readyCount_mono (dut : Nat → Bool × Char) :
    ∀ (u t : Nat), t ≤ u → readyCount dut t ≤ readyCount dut u := by
  intro u
  induction u with
  | zero => intro t h; simp at h; subst h; exact Nat.le_refl _
  | succ n ih =>
    intro t h
    rcases Nat.lt_or_ge t (n + 1) with h1 | h1
    · have := ih t (by omega)
      simp only [readyCount]
      omega
    · have : t = n + 1 := by omega
      subst this
      exact Nat.le_refl _

theorem readyBytes_length (dut : Nat → Bool × Char) :
    ∀ t : Nat, (readyBytes dut t).length = readyCount dut t := by
  intro t
  induction t with
  | zero => rfl
  | succ n ih =>
    simp only [readyBytes, readyCount, List.length_append, ih]
    split_ifs <;> simp

theorem driverLoop_spec (dut : Nat → Bool × Char) (N : Nat) :
    ∀ (fuel : Nat) (s : Driver),
      LARGE_NUMBER + 1 ≤ fuel + s.testcount → s.testcount = s.ticks →
      s.ticks ≤ LARGE_NUMBER → s.num_received = readyCount dut s.ticks →
      s.out = readyBytes dut s.ticks → (∀ t, t < s.ticks → readyCount dut t < N) →
      s.num_received ≤ N →
      ∃ r, driverLoop dut (N : Int) fuel s = some r ∧ r.ticks ≤ LARGE_NUMBER ∧
        r.testcount = r.ticks + 1 ∧ r.num_received = readyCount dut r.ticks ∧
        r.out = readyBytes dut r.ticks ∧ (∀ t, t < r.ticks → readyCount dut t < N) ∧
        (r.ticks = LARGE_NUMBER ∨ readyCount dut r.ticks = N) := by
  intro fuel
  induction fuel with
  | zero =>
    intro s h1 h2 h3
    exfalso
    omega
  | succ n ih =>
    intro s h1 h2 h3 h4 h5 h6 h7
    have hL : LARGE_NUMBER < 2 ^ 32 - 1 := by decide
    have hmod : (s.testcount + 1) % 2 ^ 32 = s.testcount + 1 :=
      Nat.mod_eq_of_lt (by omega)
    rw [driverLoop]
    simp only [hmod, Nat.cast_lt]
    by_cases hc : s.testcount < LARGE_NUMBER ∧ s.num_received < N
    · rw [if_pos hc]
      have hnext : ∀ t, t < s.ticks + 1 → readyCount dut t < N := by
        intro t ht
        rcases Nat.lt_or_ge t s.ticks with h | h
        · exact h6 t h
        · have : t = s.ticks := by omega
          subst this
          omega
      by_cases ho : (dut s.ticks).1 = true
      · rw [if_pos ho]
        exact ih _ (by simp only []; omega) (by simp only []; omega)
          (by simp only []; omega)
          (by simp only [readyCount, if_pos ho]; omega)
          (by simp only [readyBytes, if_pos ho, h5])
          hnext (by simp only []; omega)
      · rw [if_neg ho]
        exact ih _ (by simp only []; omega) (by simp only []; omega)
          (by simp only []; omega)
          (by simp only [readyCount, if_neg ho]; omega)
          (by simp only [readyBytes, if_neg ho, h5, List.append_nil])
          hnext (by simp only []; omega)
    · rw [if_neg hc]
      refine ⟨_, rfl, h3, by simp only []; omega, h4, h5, h6, ?_⟩
      simp only []
      rcases not_and_or.mp hc with h | h
      · left; omega
      · right; omega

/-- C9: with the core an arbitrary function from the tick number to
`(o_wr, o_data)` and `N` bytes expected, the tick loop ends, after exactly
`min(LARGE_NUMBER, t_N)` ticks, where `t_N` is the least number of ticks that
contain `N` ticks with `o_wr` set (so the `N`-th such tick is tick `t_N`,
counting ticks from 1) and the loop runs `LARGE_NUMBER` ticks when there is no
such number; the bytes written are the `o_data` of the performed ticks with
`o_wr` set, in tick order, and they are at most `N`. -/
theorem driver_ticks (dut : Nat → Bool × Char) (N : Nat) :
    ∃ r, driver dut (N : Int) = some r ∧
      (∀ h : ∃ t, readyCount dut t = N, r.ticks = min LARGE_NUMBER (Nat.find h)) ∧
      ((¬ ∃ t, readyCount dut t = N) → r.ticks = LARGE_NUMBER) ∧
      r.out = readyBytes dut r.ticks ∧ r.out.length ≤ N := by
  obtain ⟨r, h1, h2, _, h4, h5, h6, h7⟩ := driverLoop_spec dut N (LARGE_NUMBER + 1)
    { testcount := 0, num_received := 0, ticks := 0, out := [] }
    (by simp) rfl (Nat.zero_le _) rfl rfl (by intro t ht; simp at ht) (Nat.zero_le _)
  have hle : readyCount dut r.ticks ≤ N := by
    rcases Nat.eq_zero_or_pos r.ticks with h0 | hpos
    · rw [h0]; simp [readyCount]
    · have := h6 (r.ticks - 1) (by omega)
      have hs : r.ticks = (r.ticks - 1) + 1 := by omega
      rw [hs]
      simp only [readyCount]
      split_ifs <;> omega
  refine ⟨r, h1, ?_, ?_, h5, ?_⟩
  · intro h
    have hfind := Nat.find_spec h
    have hlow : r.ticks ≤ Nat.find h := by
      by_contra hcon
      have := h6 (Nat.find h) (by omega)
      omega
    rcases h7 with h7 | h7
    · rw [h7] at hlow ⊢
      exact (Nat.min_eq_left hlow).symm
    · have : Nat.find h ≤ r.ticks := Nat.find_min' h h7
      have he : Nat.find h = r.ticks := by omega
      rw [he]
      exact (Nat.min_eq_right h2).symm
  · intro h
    rcases h7 with h7 | h7
    · exact h7
    · exact absurd ⟨r.ticks, h7⟩ h
  · rw [h5, readyBytes_length]
    exact hle

/-- A core that reports a byte on every second tick, asked for two bytes. -/
theorem driver_ticks_witness :
    ∃ r, driver (fun t => (t % 2 == 1, Char.ofNat (65 + t / 2))) ((2 : Nat) : Int) = some r ∧
      (∀ h : ∃ t, readyCount (fun t => (t % 2 == 1, Char.ofNat (65 + t / 2))) t = 2,
        r.ticks = min LARGE_NUMBER (Nat.find h)) ∧
      ((¬ ∃ t, readyCount (fun t => (t % 2 == 1, Char.ofNat (65 + t / 2))) t = 2) →
        r.ticks = LARGE_NUMBER) ∧
      r.out = readyBytes (fun t => (t % 2 == 1, Char.ofNat (65 + t / 2))) r.ticks ∧
      r.out.length ≤ 2 :=
  driver_ticks (fun t => (t % 2 == 1, Char.ofNat (65 + t / 2))) 2

/-! ## The reference length -/

theorem strlen_append_NUL : ∀ l : List Char, (∀ c ∈ l, c ≠ NUL) →
    strlen (l ++ [NUL]) = l.length := by
  intro l
  induction l with
  | nil => intro _; simp [strlen]
  | cons c cs ih =>
    intro h
    have hc : c ≠ NUL := h c (List.mem_cons_self _ _)
    have := ih (fun x hx => h x (List.mem_cons_of_mem _ hx))
    simp only [List.cons_append, strlen, if_neg hc, List.length_cons, List.append_eq, this]

theorem transmitted_isPrefix (got : List Char) : transmitted got <+: got := by
  have hle := strlen_loadString_le got
  unfold transmitted loadString
  rw [List.take_append_of_le_length (by unfold verifierFlen loadString at *; exact hle)]
  exact List.take_prefix _ _

theorem main_reaches_fork (env : Env) (h : ReachesFork env) :
    main env =
      if env.childPid < 0 then
        some (failRun ("ERR setting up child process fork\n".toList ++ perror env "O/S Err:"))
      else if env.childPid ≠ 0 then some (parent env env.ftell)
      else child env env.ftell := by
  obtain ⟨h1, h2, h3, h4, h5, h6⟩ := h
  unfold main
  rw [if_neg h1, if_neg h2, if_neg (not_not.mpr h3), if_neg (not_le.mpr h4),
    if_neg (by rw [h5, h6]; simp)]

theorem main_parent (env : Env) (h : ReachesFork env) (hpid : 0 < env.childPid) :
    main env = some (parent env env.ftell) := by
  rw [main_reaches_fork env h, if_neg (not_lt.mpr (le_of_lt hpid)), if_pos (ne_of_gt hpid)]

theorem main_child (env : Env) (h : ReachesFork env) (hpid : env.childPid = 0) :
    main env = child env env.ftell := by
  rw [main_reaches_fork env h, if_neg (by rw [hpid]; decide), if_neg (not_not.mpr hpid)]

theorem toInt32_of_small (n : Nat) (h : n < 2 ^ 31) : toInt32 (n : Int) = (n : Int) := by
  unfold toInt32
  omega

theorem parent_abort (env : Env) (flen : Int) (hm : env.mallocOk = true)
    (ha : toInt32 (fread env flen).length ≠ flen) :
    parent env flen = stopRun Status.aborted [] := by
  unfold parent
  rw [if_neg (not_not.mpr hm), if_pos ha]

/-- C5, amended: for a reference file of length `L` with `0 < L < 2^31` whose
content holds no zero byte, in a run that gets as far as the fork one length is
used everywhere.  The child runs its tick loop with the target `L`.  The parent
puts on channel A nothing but a leading part of the content; when allocation
succeeds and `write` accepts the `L` bytes it is asked for, channel A carries
the content, unchanged, and the compare loop runs on that content with the
target `L`. -/
theorem one_length_everywhere (env : Env) (hfork : ReachesFork env)
    (hlen : env.ftell = (env.file.length : Int)) (hsmall : env.file.length < 2 ^ 31)
    (hnul : ∀ c ∈ env.file, c ≠ NUL) :
    (env.childPid = 0 → env.dupInOk = true → env.dupOutOk = true →
      main env = (driver env.dut (env.file.length : Int)).map driverRun) ∧
    (0 < env.childPid →
      ∃ r, main env = some r ∧ r.chanA <+: env.file ∧
        (env.mallocOk = true → env.written = WriteResult.returned env.file.length →
          r = verdictRun (compare (env.file ++ [NUL]) env.file.length env.reads env.rdbuf)
                env.file)) := by
  have hgot : fread env env.ftell = env.file := by
    unfold fread
    rw [hlen, Int.toNat_ofNat, List.take_length]
  have hflen : verifierFlen env.file = env.file.length := strlen_append_NUL env.file hnul
  have htr : transmitted env.file = env.file := by
    unfold transmitted loadString
    rw [hflen, List.take_left']
    rfl
  have hassert : ¬ toInt32 (fread env env.ftell).length ≠ env.ftell := by
    rw [hgot, hlen, toInt32_of_small _ hsmall]
    exact not_not.mpr rfl
  refine ⟨?_, ?_⟩
  · intro hpid hd1 hd2
    rw [main_child env hfork hpid]
    unfold child
    rw [if_neg (not_not.mpr hd1), if_neg (not_not.mpr hd2), hlen]
  · intro hpid
    refine ⟨parent env env.ftell, main_parent env hfork hpid, ?_, ?_⟩
    · unfold parent
      by_cases hm : env.mallocOk = true
      · rw [if_neg (not_not.mpr hm), if_neg hassert, hgot]
        cases env.written with
        | returned n =>
          simp only [afterLoad]
          split_ifs
          · exact (List.take_prefix _ _).trans (transmitted_isPrefix _)
          · exact (List.take_prefix _ _).trans (transmitted_isPrefix _)
        | sigpipe k => exact (List.take_prefix _ _).trans (transmitted_isPrefix _)
        | blocked k => exact (List.take_prefix _ _).trans (transmitted_isPrefix _)
      · rw [if_pos hm]
        exact List.nil_prefix
    · intro hm hw
      unfold parent
      rw [if_neg (not_not.mpr hm), if_neg hassert, hgot, hw]
      simp only [afterLoad]
      rw [if_neg (by rw [hflen, toInt32_of_small _ hsmall]; exact not_not.mpr rfl), hflen, htr,
        Int.toNat_ofNat, List.take_length]
      rfl

/-- The reference `AB`, in the parent and in the child. -/
theorem one_length_everywhere_witness :
    (plainEnv.childPid = 0 → plainEnv.dupInOk = true → plainEnv.dupOutOk = true →
      main plainEnv = (driver plainEnv.dut (plainEnv.file.length : Int)).map driverRun) ∧
    (0 < plainEnv.childPid →
      ∃ r, main plainEnv = some r ∧ r.chanA <+: plainEnv.file ∧
        (plainEnv.mallocOk = true →
          plainEnv.written = WriteResult.returned plainEnv.file.length →
          r = verdictRun (compare (plainEnv.file ++ [NUL]) plainEnv.file.length
                plainEnv.reads plainEnv.rdbuf) plainEnv.file)) :=
  one_length_everywhere plainEnv (by unfold ReachesFork; decide) (by decide) (by decide)
    (by decide)

/-- C5 as stated fails in two ways.  For the three bytes `A`, `0`, `B` the
parent puts the single byte `A` on channel A and its compare loop has the target
1 (it reports `all 1 characters matched`), while the child, given a core that
reports a byte on every tick, stops only after 3 bytes.  For a reference of
`2^31` bytes without a zero byte the parent stops at the assertion of line 192
and transmits nothing. -/
theorem length_differs :
    main nulEnv = some (verdictRun (compare ['A', NUL, 'B', NUL] 1 [['A']] (fun _ => NUL)) ['A']) ∧
    report (compare ['A', NUL, 'B', NUL] 1 [['A']] (fun _ => NUL))
      = "A\n\nSUCCESS - all 1 characters matched\nPASS\n".toList ∧
    main { nulEnv with childPid := 0 } = some (driverRun
      { testcount := 4, num_received := 3, ticks := 3, out := ['A', 'B', 'B'] }) ∧
    main hugeEnv = some (stopRun Status.aborted []) := by
  refine ⟨by decide, by decide, by decide, ?_⟩
  have hfork : ReachesFork hugeEnv := by unfold ReachesFork; decide
  rw [main_parent hugeEnv hfork (by decide)]
  have hlen : (fread hugeEnv hugeEnv.ftell).length = 2147483648 := by
    show (List.take (2147483648 : Int).toNat (List.replicate 2147483648 'a')).length
      = 2147483648
    rw [List.length_take, List.length_replicate]
    rfl
  rw [parent_abort hugeEnv hugeEnv.ftell rfl (by rw [hlen]; decide)]

/-! ## Failures of the stated behaviour -/

/-- C1, evaluated: with the reference `AB`, one byte `A` delivered and then
end-of-stream, the loop ends with `fail = -1` at offset `nr = 1 < 2`, and the
verifier prints `SUCCESS - all 1 characters matched` and `PASS`. -/
theorem pass_before_all_bytes :
    (compare ("AB".toList ++ [NUL]) 2 [['A'], []] (fun _ => NUL)).fail = -1 ∧
    (compare ("AB".toList ++ [NUL]) 2 [['A'], []] (fun _ => NUL)).nr = 1 ∧
    verdict ("AB".toList ++ [NUL]) 2 [['A'], []] (fun _ => NUL) =
      "A\n\nSUCCESS - all 1 characters matched\nPASS\n".toList := by
  decide

/-- C4, evaluated: with the reference `ABC` and the stream `AB` followed by
end-of-stream, the verifier prints neither `ERROR: Stream ended early` nor
`FAIL`; its output is the echo `AB`, `SUCCESS - all 2 characters matched` and
`PASS`. -/
theorem early_end_reported_as_pass :
    verdict ("ABC".toList ++ [NUL]) 3 [['A', 'B'], []] (fun _ => NUL) =
      "AB\n\nSUCCESS - all 2 characters matched\nPASS\n".toList ∧
    (compare ("ABC".toList ++ [NUL]) 3 [['A', 'B'], []] (fun _ => NUL)).fail = -1 := by
  decide

theorem driver_ticks_le (dut : Nat → Bool × Char) (N : Nat) :
    ∃ r, driver dut (N : Int) = some r ∧ r.ticks ≤ LARGE_NUMBER := by
  obtain ⟨r, h1, h2, _⟩ := driverLoop_spec dut N (LARGE_NUMBER + 1)
    { testcount := 0, num_received := 0, ticks := 0, out := [] }
    (by simp) rfl (Nat.zero_le _) rfl rfl (by intro t ht; simp at ht) (Nat.zero_le _)
  exact ⟨r, h1, h2⟩

/-- C7, evaluated: at `baudclocks = 868` and a reference of 967 bytes the
ceiling is below the number of ticks the source names as needed; for a
reference of 4194296 bytes it is below that number for every `baudclocks`; and
whatever the core does, the driver then stops before that many ticks. -/
theorem ceiling_below_nominal_ticks :
    LARGE_NUMBER < nominalTicks 868 967 ∧
    (∀ baudclocks, LARGE_NUMBER < nominalTicks baudclocks 4194296) ∧
    ∀ dut, ∃ r, driver dut ((967 : Nat) : Int) = some r ∧ r.ticks < nominalTicks 868 967 := by
  refine ⟨by decide, ?_, ?_⟩
  · intro b
    unfold nominalTicks LARGE_NUMBER
    omega
  · intro dut
    obtain ⟨r, h1, h2⟩ := driver_ticks_le dut 967
    refine ⟨r, h1, lt_of_le_of_lt h2 (by decide)⟩

/-! ## The sentinel line -/

theorem endsInOneSentinel_failRun (err : List Char) :
    EndsInOneSentinel (failRun err).stdout := by
  refine ⟨[], "FAIL".toList, rfl, Or.inr rfl, Or.inl rfl, ?_⟩
  intro t _ hsuf
  obtain ⟨u, hu⟩ := hsuf
  have := congrArg List.length hu
  simp only [List.length_nil, List.length_append, List.length_singleton] at this
  omega

/-- C6, evaluated: started as `rxuart_tb missing.txt` with no such file, the
program leaves at line 84 with its message on standard error and an empty
standard output, which does not end in a sentinel line; the same start with the
file passing `access` but not `fopen` (line 106) does print `FAIL` as its one
sentinel line. -/
theorem missing_file_without_sentinel :
    main missingFileEnv
      = some (exitRun "Could not open pattern file, missing.txt\n".toList) ∧
    (exitRun "Could not open pattern file, missing.txt\n".toList).stdout = [] ∧
    ¬ EndsInOneSentinel (exitRun "Could not open pattern file, missing.txt\n".toList).stdout ∧
    ∃ r, main { missingFileEnv with accessOk := true, fopenOk := false } = some r ∧
      r.stdout = "FAIL\n".toList ∧ EndsInOneSentinel r.stdout := by
  refine ⟨by decide, rfl, ?_, ?_⟩
  · intro h
    obtain ⟨pre, s, h1, _⟩ := h
    have := congrArg List.length h1
    simp only [exitRun, List.length_nil, List.length_append, List.length_singleton] at this
    omega
  · exact ⟨failRun ("ERR - could not open ".toList ++ "missing.txt".toList ++ "\n".toList
      ++ perror missingFileEnv "O/S Err:"), by decide, rfl, endsInOneSentinel_failRun _⟩

end RxUartTb
